import Mathlib

/-!
Verification of the stardust embedded property-graph store (`src/store.cpp`,
`src/encode.hpp`).  The development shallowly embeds the store: byte strings
are `List ℕ` (each entry a byte value), machine integers are `ℕ`/`ℤ` with
explicit `% 2^w` where the C++ performs a narrowing cast, LMDB tables are
association lists keyed by the decoded key tuples (LMDB key order is
irrelevant to every property proved here), and fallible operations return
`Except Err`.  Stored node headers, edge refs and property values are kept in
decoded form; the binary codec itself is embedded separately and its
round-trip properties are proved, which justifies that representation.
-/

namespace Stardust

/-! ## Codec: big-endian integers (`encode.hpp`) -/

/-- `put_be32`: the four big-endian bytes of a `u32` (each byte is
`(x >> s) & 0xff`, i.e. `x / 2^s % 256`). -/
def be32 (x : ℕ) : List ℕ :=
  [x / 16777216 % 256, x / 65536 % 256, x / 256 % 256, x % 256]

/-- `put_be64`: the eight big-endian bytes of a `u64`. -/
def be64 (x : ℕ) : List ℕ :=
  [x / 72057594037927936 % 256, x / 281474976710656 % 256,
   x / 1099511627776 % 256, x / 4294967296 % 256,
   x / 16777216 % 256, x / 65536 % 256, x / 256 % 256, x % 256]

/-- `read_be32` on a byte stream: consume four bytes, return the value and
the rest; fails when fewer than four bytes remain. -/
def readBE32 : List ℕ → Option (ℕ × List ℕ)
  | b0 :: b1 :: b2 :: b3 :: rest =>
      some (((b0 * 256 + b1) * 256 + b2) * 256 + b3, rest)
  | _ => none

/-- `read_be64` on a byte stream. -/
def readBE64 : List ℕ → Option (ℕ × List ℕ)
  | b0 :: b1 :: b2 :: b3 :: b4 :: b5 :: b6 :: b7 :: rest =>
      some ((((((((b0 * 256 + b1) * 256 + b2) * 256 + b3) * 256 + b4) * 256
        + b5) * 256 + b6) * 256 + b7), rest)
  | _ => none

theorem readBE32_be32 (x : ℕ) (r : List ℕ) (h : x < 4294967296) :
    readBE32 (be32 x ++ r) = some (x, r) := by
  simp only [be32, List.cons_append, List.nil_append, readBE32]
  congr 1
  congr 1
  omega

theorem readBE64_be64 (x : ℕ) (r : List ℕ) (h : x < 18446744073709551616) :
    readBE64 (be64 x ++ r) = some (x, r) := by
  simp only [be64, List.cons_append, List.nil_append, readBE64]
  congr 1
  congr 1
  omega

/-! ## Codec: tagged values (`encode_value` / `decode_value`, store.cpp) -/

/-- The `Value` variant: i64, f64, bool, interned text id, raw bytes, null.
The f64 arm is carried as its raw IEEE-754 bit pattern (a `u64`): the codec
moves the 8 bytes verbatim, so bit-pattern identity is exactly what the
round-trip preserves. -/
inductive Value where
  | i64 (x : ℤ)
  | f64 (bits : ℕ)
  | bool (b : Bool)
  | textId (t : ℕ)
  | bytes (s : List ℕ)
  | null
deriving DecidableEq, Repr

/-- `encode_value`: one tag byte then the payload.  The i64 payload is the
two's-complement `u64` bit pattern (`static_cast<uint64_t>(x)`); the bytes
payload length is narrowed to `u32` as in `static_cast<uint32_t>(s.size())`. -/
def encode_value : Value → List ℕ
  | .i64 x => 0 :: be64 ((x % 18446744073709551616).toNat)
  | .f64 bits => 1 :: be64 bits
  | .bool b => [2, if b then 1 else 0]
  | .textId t => 3 :: be32 t
  | .bytes s => 4 :: (be32 (s.length % 4294967296) ++ s)
  | .null => [5]

/-- `decode_value`: returns the decoded value and the remaining bytes, or
`none` on a corrupt record (truncated payload or unknown tag).  A bool
payload is nonzero-is-true, exactly as `bool(*p++ != 0)`. -/
def decode_value (l : List ℕ) : Option (Value × List ℕ) :=
  match l with
  | [] => none
  | tag :: rest =>
    if tag = 0 then
      (readBE64 rest).map fun p =>
        (.i64 (if p.1 < 9223372036854775808 then (p.1 : ℤ)
               else (p.1 : ℤ) - 18446744073709551616), p.2)
    else if tag = 1 then
      (readBE64 rest).map fun p => (.f64 p.1, p.2)
    else if tag = 2 then
      match rest with
      | b :: r => some (.bool (decide (b ≠ 0)), r)
      | [] => none
    else if tag = 3 then
      (readBE32 rest).map fun p => (.textId p.1, p.2)
    else if tag = 4 then
      match readBE32 rest with
      | some (len, r) =>
          if len ≤ r.length then some (.bytes (r.take len), r.drop len) else none
      | none => none
    else if tag = 5 then
      some (.null, rest)
    else none

/-- Well-formedness of a value for the encoder: every numeric field fits the
machine width the C++ struct gives it. -/
def wfValue : Value → Prop
  | .i64 x => -9223372036854775808 ≤ x ∧ x < 9223372036854775808
  | .f64 bits => bits < 18446744073709551616
  | .bool _ => True
  | .textId t => t < 4294967296
  | .bytes s => s.length < 4294967296
  | .null => True

instance : DecidablePred wfValue := by
  intro v
  cases v <;> simp only [wfValue] <;> infer_instance

theorem decode_encode_value (v : Value) (r : List ℕ) (h : wfValue v) :
    decode_value (encode_value v ++ r) = some (v, r) := by
  cases v with
  | i64 x =>
      obtain ⟨h1, h2⟩ := h
      simp only [encode_value, List.cons_append, decode_value]
      rw [readBE64_be64 _ _ (by omega)]
      simp only [Option.map_some']
      have hval : (if ((x % 18446744073709551616).toNat : ℕ) < 9223372036854775808
          then (((x % 18446744073709551616).toNat : ℕ) : ℤ)
          else (((x % 18446744073709551616).toNat : ℕ) : ℤ) - 18446744073709551616) = x := by
        split <;> omega
      rw [hval]
      simp
  | f64 bits =>
      simp only [encode_value, List.cons_append, decode_value]
      rw [readBE64_be64 _ _ h]
      simp
  | bool b =>
      cases b <;> simp [encode_value, decode_value]
  | textId t =>
      simp only [encode_value, List.cons_append, decode_value]
      rw [readBE32_be32 _ _ h]
      simp
  | bytes s =>
      simp only [encode_value, List.cons_append, decode_value]
      rw [Nat.mod_eq_of_lt h, List.append_assoc, readBE32_be32 _ _ h]
      simp
  | null =>
      simp [encode_value, decode_value]

/-! ## Codec: properties, label sets, node headers (store.cpp) -/

/-- A property: 4-byte key id then an encoded value. -/
structure Property where
  keyId : ℕ
  val : Value
deriving DecidableEq, Repr

/-- `encode_property`. -/
def encode_property (p : Property) : List ℕ :=
  be32 p.keyId ++ encode_value p.val

/-- `decode_property`. -/
def decode_property (l : List ℕ) : Option (Property × List ℕ) :=
  match readBE32 l with
  | some (k, r) => (decode_value r).map fun q => (⟨k, q.1⟩, q.2)
  | none => none

/-- `encode_label_set`: 4-byte count then the 4-byte ids; the count is the
`size_t` narrowed to `u32`. -/
def encode_label_set (ls : List ℕ) : List ℕ :=
  be32 (ls.length % 4294967296) ++ (ls.map be32).flatten

/-- The count-driven id loop of `decode_label_set`. -/
def decode_u32s : ℕ → List ℕ → Option (List ℕ × List ℕ)
  | 0, r => some ([], r)
  | n + 1, r =>
    match readBE32 r with
    | some (x, r1) => (decode_u32s n r1).map fun q => (x :: q.1, q.2)
    | none => none

/-- `decode_label_set`. -/
def decode_label_set (l : List ℕ) : Option (List ℕ × List ℕ) :=
  match readBE32 l with
  | some (n, r) => decode_u32s n r
  | none => none

/-- A node header: 8-byte id, label set, 4-byte hot-prop count, hot props. -/
structure NodeHeader where
  id : ℕ
  labels : List ℕ
  hotProps : List Property
deriving DecidableEq, Repr

/-- `encode_node_header`. -/
def encode_node_header (h : NodeHeader) : List ℕ :=
  be64 h.id ++ encode_label_set h.labels
    ++ be32 (h.hotProps.length % 4294967296)
    ++ (h.hotProps.map encode_property).flatten

/-- The count-driven property loop of `decode_node_header`. -/
def decode_props : ℕ → List ℕ → Option (List Property × List ℕ)
  | 0, r => some ([], r)
  | n + 1, r =>
    match decode_property r with
    | some (p, r1) => (decode_props n r1).map fun q => (p :: q.1, q.2)
    | none => none

/-- `decode_node_header`; trailing bytes are an error. -/
def decode_node_header (l : List ℕ) : Option NodeHeader :=
  match readBE64 l with
  | some (id, r1) =>
    match decode_label_set r1 with
    | some (ls, r2) =>
      match readBE32 r2 with
      | some (n, r3) =>
        match decode_props n r3 with
        | some (ps, r4) => if r4 = [] then some ⟨id, ls, ps⟩ else none
        | none => none
      | none => none
    | none => none
  | none => none

/-- Well-formedness of a property for the encoder. -/
def wfProperty (p : Property) : Prop :=
  p.keyId < 4294967296 ∧ wfValue p.val

instance : DecidablePred wfProperty := by
  intro p
  unfold wfProperty
  infer_instance

/-- Well-formedness of a label set for the encoder: the count and every id
fit in a `u32`. -/
def wfLabelSet (ls : List ℕ) : Prop :=
  ls.length < 4294967296 ∧ ∀ l ∈ ls, l < 4294967296

instance : DecidablePred wfLabelSet := by
  intro ls
  unfold wfLabelSet
  infer_instance

/-- Well-formedness of a node header for the encoder. -/
def wfHeader (h : NodeHeader) : Prop :=
  h.id < 18446744073709551616 ∧ wfLabelSet h.labels
    ∧ h.hotProps.length < 4294967296 ∧ ∀ p ∈ h.hotProps, wfProperty p

instance : DecidablePred wfHeader := by
  intro h
  unfold wfHeader
  infer_instance

theorem decode_encode_property (p : Property) (r : List ℕ) (h : wfProperty p) :
    decode_property (encode_property p ++ r) = some (p, r) := by
  obtain ⟨h1, h2⟩ := h
  simp only [encode_property, decode_property, List.append_assoc,
    readBE32_be32 _ _ h1, decode_encode_value _ _ h2]
  rfl

theorem decode_u32s_join (ls : List ℕ) (r : List ℕ) (h : ∀ l ∈ ls, l < 4294967296) :
    decode_u32s ls.length ((ls.map be32).flatten ++ r) = some (ls, r) := by
  induction ls generalizing r with
  | nil => simp [decode_u32s]
  | cons a as ih =>
      simp only [List.map_cons, List.flatten, List.length_cons, decode_u32s,
        List.append_assoc, readBE32_be32 a _ (h a (by simp))]
      rw [ih r (fun l hl => h l (by simp [hl]))]
      rfl

theorem decode_encode_label_set (ls : List ℕ) (r : List ℕ) (h : wfLabelSet ls) :
    decode_label_set (encode_label_set ls ++ r) = some (ls, r) := by
  obtain ⟨h1, h2⟩ := h
  simp only [encode_label_set, decode_label_set, List.append_assoc,
    Nat.mod_eq_of_lt h1, readBE32_be32 _ _ h1]
  exact decode_u32s_join ls r h2

theorem decode_props_join (ps : List Property) (r : List ℕ)
    (h : ∀ p ∈ ps, wfProperty p) :
    decode_props ps.length ((ps.map encode_property).flatten ++ r) = some (ps, r) := by
  induction ps generalizing r with
  | nil => simp [decode_props]
  | cons a as ih =>
      simp only [List.map_cons, List.flatten, List.length_cons, decode_props,
        List.append_assoc, decode_encode_property a _ (h a (by simp))]
      rw [ih r (fun p hp => h p (by simp [hp]))]
      rfl

theorem decode_encode_node_header (h : NodeHeader) (hw : wfHeader h) :
    decode_node_header (encode_node_header h) = some h := by
  obtain ⟨h1, h2, h3, h4⟩ := hw
  have e1 : encode_node_header h = be64 h.id ++ (encode_label_set h.labels
      ++ (be32 (h.hotProps.length % 4294967296)
      ++ ((h.hotProps.map encode_property).flatten ++ []))) := by
    simp [encode_node_header]
  rw [e1]
  simp only [decode_node_header, readBE64_be64 _ _ h1,
    decode_encode_label_set _ _ h2, Nat.mod_eq_of_lt h3,
    readBE32_be32 _ _ h3, decode_props_join _ _ h4]
  rfl

/-! ## LMDB table model

A table with values is an association list (`mdb_put` overwrites, `mdb_get`
is lookup, `mdb_del` removes the key); an index table with empty values is a
list of keys.  LMDB keeps keys unique and sorted; key order is irrelevant to
every property proved below, so the lists are kept unordered. -/

/-- `mdb_get`. -/
def tblGet {κ V : Type} [DecidableEq κ] (t : List (κ × V)) (k : κ) : Option V :=
  (t.find? fun p => decide (p.1 = k)).map Prod.snd

/-- `mdb_put` (overwrite semantics). -/
def tblPut {κ V : Type} [DecidableEq κ] (t : List (κ × V)) (k : κ) (v : V) :
    List (κ × V) :=
  (k, v) :: t.filter fun p => decide (p.1 ≠ k)

/-- `mdb_del` (tolerant of a missing key). -/
def tblDel {κ V : Type} [DecidableEq κ] (t : List (κ × V)) (k : κ) :
    List (κ × V) :=
  t.filter fun p => decide (p.1 ≠ k)

/-- `mdb_put` of an empty-valued index row. -/
def idxPut {κ : Type} [DecidableEq κ] (t : List κ) (k : κ) : List κ :=
  k :: t.filter fun x => decide (x ≠ k)

/-- `mdb_del` of an index row. -/
def idxDel {κ : Type} [DecidableEq κ] (t : List κ) (k : κ) : List κ :=
  t.filter fun x => decide (x ≠ k)

theorem tblGet_cons {κ V : Type} [DecidableEq κ] (a : κ × V) (t : List (κ × V))
    (k : κ) : tblGet (a :: t) k = if a.1 = k then some a.2 else tblGet t k := by
  by_cases h : a.1 = k <;> simp [tblGet, List.find?_cons, h]

theorem tblDel_cons {κ V : Type} [DecidableEq κ] (a : κ × V) (t : List (κ × V))
    (k : κ) : tblDel (a :: t) k = if a.1 = k then tblDel t k else a :: tblDel t k := by
  by_cases h : a.1 = k <;> simp [tblDel, List.filter_cons, h]

theorem tblGet_tblDel {κ V : Type} [DecidableEq κ] (t : List (κ × V)) (k k' : κ) :
    tblGet (tblDel t k) k' = if k = k' then none else tblGet t k' := by
  induction t with
  | nil =>
      simp [tblDel, tblGet]
  | cons a t ih =>
      rw [tblDel_cons]
      by_cases ha : a.1 = k
      · rw [if_pos ha, ih, tblGet_cons]
        by_cases hk : k = k'
        · simp [hk]
        · rw [if_neg hk, if_neg hk, if_neg (by rw [ha]; exact hk)]
      · rw [if_neg ha, tblGet_cons, tblGet_cons, ih]
        by_cases hak : a.1 = k'
        · have hk : k ≠ k' := fun hh => ha (hh ▸ hak)
          rw [if_pos hak, if_neg hk, if_pos hak]
        · by_cases hk : k = k'
          · simp [hak, hk]
          · simp [hak, hk]

theorem tblGet_tblPut {κ V : Type} [DecidableEq κ] (t : List (κ × V)) (k k' : κ)
    (v : V) : tblGet (tblPut t k v) k' = if k = k' then some v else tblGet t k' := by
  show tblGet ((k, v) :: tblDel t k) k' = _
  rw [tblGet_cons]
  by_cases hk : k = k'
  · simp [hk]
  · rw [if_neg hk, if_neg hk, tblGet_tblDel, if_neg hk]

theorem tblGet_tblPut_self {κ V : Type} [DecidableEq κ]
    (t : List (κ × V)) (k : κ) (v : V) : tblGet (tblPut t k v) k = some v := by
  rw [tblGet_tblPut, if_pos rfl]

theorem tblGet_mem {κ V : Type} [DecidableEq κ]
    {t : List (κ × V)} {k : κ} {v : V} (h : tblGet t k = some v) : (k, v) ∈ t := by
  simp only [tblGet, Option.map_eq_some'] at h
  obtain ⟨p, hp, hv⟩ := h
  have hmem := List.mem_of_find?_eq_some hp
  have hk := List.find?_some hp
  simp only [decide_eq_true_eq] at hk
  obtain ⟨pk, pv⟩ := p
  simp only at hk hv
  subst hk
  subst hv
  exact hmem

theorem mem_idxDel {κ : Type} [DecidableEq κ] (t : List κ) (k x : κ) :
    x ∈ idxDel t k ↔ x ∈ t ∧ x ≠ k := by
  simp [idxDel]

theorem mem_idxPut {κ : Type} [DecidableEq κ] (t : List κ) (k x : κ) :
    x ∈ idxPut t k ↔ x ∈ t ∨ x = k := by
  constructor
  · intro h
    rcases List.mem_cons.mp h with h | h
    · exact Or.inr h
    · exact Or.inl (List.mem_filter.mp h).1
  · rintro (h | rfl)
    · by_cases hx : x = k
      · exact hx ▸ List.mem_cons_self _ _
      · exact List.mem_cons_of_mem _ (List.mem_filter.mpr ⟨h, by simpa using hx⟩)
    · exact List.mem_cons_self _ _

/-! ## Store state

The decoded contents of the LMDB buckets used by the claims.  Sequence
counters live in the meta bucket; they are modelled as `ℕ` fields (the C++
narrows dictionary sequence values to `u32` on return, which only differs
after `2^32` creations).  Only the label dictionary is embedded: the other
four dictionary namespaces in store.cpp are verbatim copies of the label
one over their own buckets. -/

/-- A row of `edgesBySrcType` or `edgesByDstType`:
`(major, typeId, minor, edgeId)` — for the src index the major is the src
and the minor the dst, for the dst index the reverse. -/
structure IdxRow where
  major : ℕ
  ty : ℕ
  minor : ℕ
  edge : ℕ
deriving DecidableEq, Repr

/-- The key of the row mirroring `r` in the opposite adjacency index. -/
def IdxRow.mirror (r : IdxRow) : IdxRow :=
  ⟨r.minor, r.ty, r.major, r.edge⟩

/-- The decoded 24-byte `edgesById` value `(id, src, dst)`. -/
structure EdgeRef where
  id : ℕ
  src : ℕ
  dst : ℕ
deriving DecidableEq, Repr

/-- Error kinds raised by the store (`MdbError` carrying distinct messages;
`notFound` is `MDB_NOTFOUND` surfaced through `mdb_strerror`). -/
inductive Err where
  | notFound
  | corrupt
  | invalidArg
  | dimMismatch
deriving DecidableEq, Repr

/-- The store's bucket contents. -/
structure StoreState where
  nodes : List (ℕ × NodeHeader)
  nodeColdProps : List ((ℕ × ℕ) × Value)
  nodeVectors : List ((ℕ × ℕ) × List ℕ)
  edgesBySrcType : List IdxRow
  edgesByDstType : List IdxRow
  edgesById : List (ℕ × EdgeRef)
  edgeProps : List ((ℕ × ℕ) × Value)
  labelIndex : List (ℕ × ℕ)
  vecTagMeta : List (ℕ × ℕ)
  labelIds : List (ℕ × String)
  labelsByName : List (String × ℕ)
  nodeSeq : ℕ
  edgeSeq : ℕ
  labelSeq : ℕ
deriving DecidableEq, Repr

/-- A fresh environment: every bucket empty, every sequence 0. -/
def emptyState : StoreState :=
  ⟨[], [], [], [], [], [], [], [], [], [], [], 0, 0, 0⟩

/-! ## Store helpers (store.cpp) -/

/-- Insertion into a sorted duplicate-free `u32` list; used to model both
`sort_unique` (as a fold) and the `lower_bound`-insert of `setNodeLabels`. -/
def insSorted (x : ℕ) : List ℕ → List ℕ
  | [] => [x]
  | y :: ys =>
    if x < y then x :: y :: ys
    else if x = y then y :: ys
    else y :: insSorted x ys

/-- `sort_unique`: `std::sort` followed by `std::unique`-erase, modelled as a
fold of sorted insertion (extensionally the same sorted duplicate-free
list). -/
def sortUnique (l : List ℕ) : List ℕ :=
  l.foldr insSorted []

theorem mem_insSorted (x a : ℕ) (l : List ℕ) :
    a ∈ insSorted x l ↔ a = x ∨ a ∈ l := by
  induction l with
  | nil => simp [insSorted]
  | cons y ys ih =>
      simp only [insSorted]
      split_ifs with h1 h2
      · simp only [List.mem_cons]
      · subst h2
        constructor
        · intro h
          exact Or.inr h
        · rintro (rfl | h)
          · exact List.mem_cons_self _ _
          · exact h
      · simp only [List.mem_cons, ih]
        tauto

theorem mem_sortUnique (a : ℕ) (l : List ℕ) : a ∈ sortUnique l ↔ a ∈ l := by
  induction l with
  | nil => simp [sortUnique]
  | cons y ys ih =>
      simp only [sortUnique, List.foldr_cons] at ih ⊢
      rw [mem_insSorted, ih, List.mem_cons]

/-- The in-header hot-prop update of `upsertNodeProps`: replace the first
entry with the same key in place, or append when absent. -/
def replaceFirst (ps : List Property) (p : Property) : List Property :=
  match ps with
  | [] => []
  | hp :: t =>
    if hp.keyId = p.keyId then ⟨hp.keyId, p.val⟩ :: t
    else hp :: replaceFirst t p

/-- One `setHot` entry applied to the hot-prop list. -/
def setHotOne (ps : List Property) (p : Property) : List Property :=
  if ps.any fun hp => decide (hp.keyId = p.keyId) then replaceFirst ps p
  else ps ++ [p]

/-! ## Store operations (store.cpp) -/

/-- `Store::createNode`: allocate the id from the node sequence, sort+dedup
the labels, write the header, the cold-prop rows, the vector rows (with NO
validation against `vecTagMeta`) and the label-index rows, all in one
transaction. -/
def createNode (st : StoreState) (labels : List ℕ) (hotProps : List Property)
    (coldProps : List Property) (vectors : List (ℕ × List ℕ)) :
    StoreState × ℕ × NodeHeader :=
  let id := st.nodeSeq + 1
  let hdr : NodeHeader := ⟨id, sortUnique labels, hotProps⟩
  let st1 := { st with
    nodeSeq := id,
    nodes := tblPut st.nodes id hdr,
    nodeColdProps := coldProps.foldl
      (fun t p => tblPut t (id, p.keyId) p.val) st.nodeColdProps,
    nodeVectors := vectors.foldl
      (fun t tv => tblPut t (id, tv.1) tv.2) st.nodeVectors,
    labelIndex := hdr.labels.foldl
      (fun t labelId => idxPut t (labelId, id)) st.labelIndex }
  (st1, id, hdr)

/-- `Store::upsertNodeProps`: load the header, drop `unsetKeys` from the hot
props, apply each `setHot` entry (replace-or-append), rewrite the header;
then write each `setCold` entry and AFTERWARDS delete the cold rows of
`unsetKeys` (missing rows tolerated). -/
def upsertNodeProps (st : StoreState) (id : ℕ) (setHot : List Property)
    (setCold : List Property) (unsetKeys : List ℕ) : Except Err StoreState :=
  match tblGet st.nodes id with
  | none => .error .notFound
  | some hdr =>
    let hot1 := hdr.hotProps.filter fun p => decide (p.keyId ∉ unsetKeys)
    let hot2 := setHot.foldl setHotOne hot1
    let hdr1 : NodeHeader := ⟨hdr.id, hdr.labels, hot2⟩
    let cold1 := setCold.foldl
      (fun t p => tblPut t (id, p.keyId) p.val) st.nodeColdProps
    let cold2 := unsetKeys.foldl (fun t k => tblDel t (id, k)) cold1
    .ok { st with nodes := tblPut st.nodes id hdr1, nodeColdProps := cold2 }

/-- `Store::setNodeLabels`: load the header, sort+dedup the current labels
and both input sets, erase the `remove` ids, insert the `add` ids, rewrite
the header; then PUT the label-index rows of `add` and afterwards DELETE the
label-index rows of `remove` (missing rows tolerated). -/
def setNodeLabels (st : StoreState) (id : ℕ) (addLabels : List ℕ)
    (removeLabels : List ℕ) : Except Err StoreState :=
  match tblGet st.nodes id with
  | none => .error .notFound
  | some hdr =>
    let cur := sortUnique hdr.labels
    let add := sortUnique addLabels
    let rem := sortUnique removeLabels
    let ls1 := rem.foldl (fun ls i => ls.filter fun x => decide (x ≠ i)) cur
    let ls2 := add.foldl (fun ls i => insSorted i ls) ls1
    let hdr1 : NodeHeader := ⟨hdr.id, ls2, hdr.hotProps⟩
    let li1 := add.foldl (fun t i => idxPut t (i, id)) st.labelIndex
    let li2 := rem.foldl (fun t i => idxDel t (i, id)) li1
    .ok { st with nodes := tblPut st.nodes id hdr1, labelIndex := li2 }

/-- `Store::upsertVector`: reject a byte length that is not a multiple of 4
or a non-zero caller dim that disagrees with `len/4`; then check
`vecTagMeta` (mismatch → DimMismatch, absent → record `len/4`); finally put
the bytes. -/
def upsertVector (st : StoreState) (id : ℕ) (tagId : ℕ) (dim : ℕ)
    (data : List ℕ) : Except Err StoreState :=
  if data.length % 4 ≠ 0 then .error .invalidArg
  else
    let d := data.length / 4
    if dim ≠ 0 ∧ dim ≠ d then .error .invalidArg
    else
      match tblGet st.vecTagMeta tagId with
      | some storedDim =>
          if storedDim ≠ d then .error .dimMismatch
          else .ok { st with nodeVectors := tblPut st.nodeVectors (id, tagId) data }
      | none =>
          .ok { st with
            vecTagMeta := tblPut st.vecTagMeta tagId d,
            nodeVectors := tblPut st.nodeVectors (id, tagId) data }

/-- `Store::addEdge`: allocate the edge id, write the 24-byte `edgesById`
record, both adjacency index rows and the property rows.  No check that the
src or dst node exists. -/
def addEdge (st : StoreState) (src : ℕ) (dst : ℕ) (typeId : ℕ)
    (props : List Property) : StoreState × EdgeRef :=
  let eid := st.edgeSeq + 1
  let ref : EdgeRef := ⟨eid, src, dst⟩
  let st1 := { st with
    edgeSeq := eid,
    edgesById := tblPut st.edgesById eid ref,
    edgesBySrcType := idxPut st.edgesBySrcType ⟨src, typeId, dst, eid⟩,
    edgesByDstType := idxPut st.edgesByDstType ⟨dst, typeId, src, eid⟩,
    edgeProps := props.foldl
      (fun t p => tblPut t (eid, p.keyId) p.val) st.edgeProps }
  (st1, ref)

/-- `Store::getNode`: point-get of the header; `MDB_NOTFOUND` is raised. -/
def getNode (st : StoreState) (id : ℕ) : Except Err NodeHeader :=
  match tblGet st.nodes id with
  | some hdr => .ok hdr
  | none => .error .notFound

/-- The rows visited by `deleteNode`'s src-scan: the `edgesBySrcType` rows
with major id `id` (the cursor starts at `(id, 0, 0, 0)` and stops when the
major changes). -/
def dnSrcRows (st : StoreState) (id : ℕ) : List IdxRow :=
  st.edgesBySrcType.filter fun r => decide (r.major = id)

/-- `edgesByDstType` after the src-scan deleted each visited row's dst
mirror by exact key. -/
def dnDst1 (st : StoreState) (id : ℕ) : List IdxRow :=
  (dnSrcRows st id).foldl (fun t r => idxDel t r.mirror) st.edgesByDstType

/-- The rows visited by the symmetric dst-scan, over the dst index as left
by the src-scan. -/
def dnDstRows (st : StoreState) (id : ℕ) : List IdxRow :=
  (dnDst1 st id).filter fun r => decide (r.major = id)

/-- The edge ids remembered by both scans (`edgeIdsToDelete`). -/
def dnCollected (st : StoreState) (id : ℕ) : List ℕ :=
  (dnSrcRows st id).map IdxRow.edge ++ (dnDstRows st id).map IdxRow.edge

/-- `Store::deleteNode`: read the header and delete its label-index rows;
delete the node record; cursor-scan `edgesBySrcType` over the `(id, …)`
prefix deleting each row and its dst mirror while collecting edge ids; the
symmetric scan of `edgesByDstType`; delete `edgesById` and the `edgeProps`
prefix of every collected id; prefix-delete cold props and vectors; delete
the node record again (a tolerated no-op).  All in one transaction. -/
def deleteNode (st : StoreState) (id : ℕ) : StoreState :=
  let li1 :=
    match tblGet st.nodes id with
    | some hdr =>
        hdr.labels.foldl (fun t labelId => idxDel t (labelId, id)) st.labelIndex
    | none => st.labelIndex
  let nodes1 := tblDel st.nodes id
  let src1 := st.edgesBySrcType.filter fun r => decide (r.major ≠ id)
  let dst2 := (dnDst1 st id).filter fun r => decide (r.major ≠ id)
  let src2 := (dnDstRows st id).foldl (fun t r => idxDel t r.mirror) src1
  let ebi := (dnCollected st id).foldl (fun t e => tblDel t e) st.edgesById
  let eprops := (dnCollected st id).foldl
    (fun t e => t.filter fun p => decide (p.1.1 ≠ e)) st.edgeProps
  let cold := st.nodeColdProps.filter fun p => decide (p.1.1 ≠ id)
  let vecs := st.nodeVectors.filter fun p => decide (p.1.1 ≠ id)
  { st with
    nodes := tblDel nodes1 id,
    nodeColdProps := cold,
    nodeVectors := vecs,
    edgesBySrcType := src2,
    edgesByDstType := dst2,
    edgesById := ebi,
    edgeProps := eprops,
    labelIndex := li1 }

/-- `Store::deleteEdge`: fetch the canonical ref; discover the type id by
scanning the src prefix for the row with matching `(dst, id)` (`foundType`
stays 0 when no row matches); delete both adjacency rows only when
`foundType ≠ 0`; delete `edgesById[edgeId]` and the `edgeProps` prefix.  A
missing canonical record is tolerated. -/
def deleteEdge (st : StoreState) (edgeId : ℕ) : StoreState :=
  let pair :=
    match tblGet st.edgesById edgeId with
    | some ref =>
        let foundType :=
          ((st.edgesBySrcType.filter fun (r : IdxRow) => decide (r.major = ref.src)).find?
            fun (r : IdxRow) => decide (r.minor = ref.dst ∧ r.edge = ref.id)).elim 0 IdxRow.ty
        if foundType ≠ 0 then
          (idxDel st.edgesBySrcType ⟨ref.src, foundType, ref.dst, ref.id⟩,
           idxDel st.edgesByDstType ⟨ref.dst, foundType, ref.src, ref.id⟩)
        else (st.edgesBySrcType, st.edgesByDstType)
    | none => (st.edgesBySrcType, st.edgesByDstType)
  { st with
    edgesBySrcType := pair.1,
    edgesByDstType := pair.2,
    edgesById := tblDel st.edgesById edgeId,
    edgeProps := st.edgeProps.filter fun p => decide (p.1.1 ≠ edgeId) }

/-- `Store::getOrCreateLabelId`: look the name up in `labelsByName` and
return the stored id when present; otherwise, with `createIfMissing`,
increment the label sequence and write the id/name pair bidirectionally,
else fail with NotFound. -/
def getOrCreateLabelId (st : StoreState) (name : String)
    (createIfMissing : Bool) : Except Err (StoreState × ℕ) :=
  match tblGet st.labelsByName name with
  | some id => .ok (st, id)
  | none =>
    if createIfMissing then
      let id := st.labelSeq + 1
      .ok ({ st with
        labelSeq := id,
        labelIds := tblPut st.labelIds id name,
        labelsByName := tblPut st.labelsByName name id }, id)
    else .error .notFound

/-- `Store::getLabelName` (`read_string_by_id` on the labelIds bucket). -/
def getLabelName (st : StoreState) (id : ℕ) : Except Err String :=
  match tblGet st.labelIds id with
  | some name => .ok name
  | none => .error .notFound

/-! ## KNN (store.cpp)

Floating-point arithmetic is idealised as exact real arithmetic: the host's
reinterpretation of a 4-byte group as a `float` is an arbitrary parameter
`f32 : List ℕ → ℝ`, and the double accumulations of
`dot_product_norm_scalar` are exact sums. -/

/-- Sorted ascending (minimum-first) insertion; models a push into the
size-k min-heap.  The C++ `priority_queue` leaves the relative order of
equal scores unspecified; the model keeps earlier entries first. -/
def insertAsc {S : Type} [LinearOrder S] (c : ℕ × S) :
    List (ℕ × S) → List (ℕ × S)
  | [] => [c]
  | h :: t => if c.2 < h.2 then c :: h :: t else h :: insertAsc c t

/-- One `consider` step: push while below capacity, otherwise pop the
minimum and push only when the new score is strictly greater. -/
def consider {S : Type} [LinearOrder S] (k : ℕ) (heap : List (ℕ × S))
    (c : ℕ × S) : List (ℕ × S) :=
  if heap.length < k then insertAsc c heap
  else
    match heap with
    | [] => []
    | m :: rest => if m.2 < c.2 then insertAsc c rest else m :: rest

/-- The scan loop plus the final drain: fold `consider` over the scored
rows, then return the heap contents in descending score order (draining the
min-heap yields ascending order and the code reverses it). -/
def knnTopK {S : Type} [LinearOrder S] (k : ℕ) (rows : List (ℕ × S)) :
    List (ℕ × S) :=
  (rows.foldl (consider k) []).reverse

/-- Split a byte string into its consecutive 4-byte float32 cells. -/
def chunk4 : List ℕ → List (List ℕ)
  | b0 :: b1 :: b2 :: b3 :: rest => [b0, b1, b2, b3] :: chunk4 rest
  | _ => []

/-- The dot-product accumulation of `dot_product_norm_scalar`, exact. -/
def dotR : List ℝ → List ℝ → ℝ
  | a :: as, b :: bs => a * b + dotR as bs
  | _, _ => 0

/-- The score the code computes for one row: `dot / (qnorm · xnorm)` with
`qnorm` replaced by 1 when the query norm is zero, and 0 when the row norm
is not positive. -/
noncomputable def codeScore (f32 : List ℕ → ℝ) (qbytes vbytes : List ℕ) : ℝ :=
  let q := (chunk4 qbytes).map f32
  let x := (chunk4 vbytes).map f32
  let qnorm0 := Real.sqrt (dotR q q)
  let qnorm := if qnorm0 = 0 then 1 else qnorm0
  let xnorm := Real.sqrt (dotR x x)
  if 0 < xnorm then dotR q x / (qnorm * xnorm) else 0

/-- Cosine similarity as the specification states it: `(q·v)/(‖q‖·‖v‖)`,
and 0 by convention when either norm is zero. -/
noncomputable def cosineSim (q x : List ℝ) : ℝ :=
  if Real.sqrt (dotR q q) = 0 ∨ Real.sqrt (dotR x x) = 0 then 0
  else dotR q x / (Real.sqrt (dotR q q) * Real.sqrt (dotR x x))

/-- `Store::knn`: empty on `k = 0`; reject a query length that is not a
multiple of 4 (this check precedes the tag lookup); empty when the tag has
no registered dimension; reject a non-zero caller dim differing from the
registered one or a byte length other than `4·dim`; otherwise scan every
`nodeVectors` row, keep those with the right tag and value length, score
them and keep the top k. -/
noncomputable def knn (f32 : List ℕ → ℝ) (st : StoreState) (tagId : ℕ)
    (qbytes : List ℕ) (qdim : ℕ) (k : ℕ) : Except Err (List (ℕ × ℝ)) :=
  if k = 0 then .ok []
  else if qbytes.length % 4 ≠ 0 then .error .invalidArg
  else
    match tblGet st.vecTagMeta tagId with
    | none => .ok []
    | some dim =>
      if qdim ≠ 0 ∧ qdim ≠ dim then .error .invalidArg
      else if qbytes.length / 4 ≠ dim then .error .invalidArg
      else
        let rows := (st.nodeVectors.filter fun p =>
          decide (p.1.2 = tagId ∧ p.2.length = 4 * dim)).map
          fun p => (p.1.1, codeScore f32 qbytes p.2)
        .ok (knnTopK k rows)

/-! ## Fold lemmas for the cursor-scan delete patterns -/

theorem mem_foldl_idxDel {κ α : Type} [DecidableEq κ] (f : α → κ) (ds : List α)
    (t : List κ) (x : κ) :
    x ∈ ds.foldl (fun a d => idxDel a (f d)) t ↔ x ∈ t ∧ ∀ d ∈ ds, x ≠ f d := by
  induction ds generalizing t with
  | nil => simp
  | cons d ds ih =>
      rw [List.foldl_cons, ih, mem_idxDel]
      constructor
      · rintro ⟨⟨h1, h2⟩, h3⟩
        refine ⟨h1, ?_⟩
        intro e he
        rcases List.mem_cons.mp he with rfl | he'
        · exact h2
        · exact h3 e he'
      · rintro ⟨h1, h2⟩
        exact ⟨⟨h1, h2 d (List.mem_cons_self _ _)⟩,
          fun e he => h2 e (List.mem_cons_of_mem _ he)⟩

theorem mem_foldl_idxPut {κ α : Type} [DecidableEq κ] (f : α → κ) (ds : List α)
    (t : List κ) (x : κ) :
    x ∈ ds.foldl (fun a d => idxPut a (f d)) t ↔ x ∈ t ∨ ∃ d ∈ ds, x = f d := by
  induction ds generalizing t with
  | nil => simp
  | cons d ds ih =>
      rw [List.foldl_cons, ih, mem_idxPut]
      constructor
      · rintro (⟨h1 | h1⟩ | ⟨e, he, h3⟩)
        · exact Or.inl h1
        · exact Or.inr ⟨d, List.mem_cons_self _ _, h1⟩
        · exact Or.inr ⟨e, List.mem_cons_of_mem _ he, h3⟩
      · rintro (h1 | ⟨e, he, h3⟩)
        · exact Or.inl (Or.inl h1)
        · rcases List.mem_cons.mp he with rfl | he'
          · exact Or.inl (Or.inr h3)
          · exact Or.inr ⟨e, he', h3⟩

theorem tblGet_foldl_tblDel {κ V α : Type} [DecidableEq κ] (f : α → κ)
    (ds : List α) (t : List (κ × V)) (k : κ) :
    tblGet (ds.foldl (fun a d => tblDel a (f d)) t) k
      = if ∃ d ∈ ds, k = f d then none else tblGet t k := by
  induction ds generalizing t with
  | nil => simp
  | cons d ds ih =>
      rw [List.foldl_cons, ih]
      by_cases hk : ∃ e ∈ ds, k = f e
      · rw [if_pos hk, if_pos]
        obtain ⟨e, he, hke⟩ := hk
        exact ⟨e, List.mem_cons_of_mem _ he, hke⟩
      · rw [if_neg hk, tblGet_tblDel]
        by_cases hd : f d = k
        · rw [if_pos hd, if_pos ⟨d, List.mem_cons_self _ _, hd.symm⟩]
        · rw [if_neg hd, if_neg]
          rintro ⟨e, he, hke⟩
          rcases List.mem_cons.mp he with rfl | he'
          · exact hd hke.symm
          · exact hk ⟨e, he', hke⟩

theorem tblGet_filter_key {κ V : Type} [DecidableEq κ] (q : κ → Bool)
    (t : List (κ × V)) (k : κ) :
    tblGet (t.filter fun p => q p.1) k = if q k then tblGet t k else none := by
  induction t with
  | nil =>
      simp only [List.filter_nil]
      split <;> rfl
  | cons a t ih =>
      rw [List.filter_cons]
      by_cases ha : q a.1
      · simp only [ha, if_pos]
        rw [tblGet_cons]
        by_cases hak : a.1 = k
        · rw [if_pos hak, if_pos (hak ▸ ha), tblGet_cons, if_pos hak]
        · rw [if_neg hak, ih, tblGet_cons, if_neg hak]
      · simp only [ha, if_neg, Bool.false_eq_true, if_false]
        rw [ih]
        by_cases hqk : q k
        · rw [if_pos hqk, if_pos hqk, tblGet_cons,
            if_neg (fun h => ha (by rw [h]; exact hqk))]
        · rw [if_neg hqk, if_neg hqk]

theorem tblGet_foldl_filter_fst {V α : Type} (f : α → ℕ) (ds : List α)
    (t : List ((ℕ × ℕ) × V)) (k : ℕ × ℕ) :
    tblGet (ds.foldl (fun a d => a.filter fun p => decide (p.1.1 ≠ f d)) t) k
      = if ∃ d ∈ ds, k.1 = f d then none else tblGet t k := by
  induction ds generalizing t with
  | nil => simp
  | cons d ds ih =>
      rw [List.foldl_cons, ih]
      by_cases hk : ∃ e ∈ ds, k.1 = f e
      · rw [if_pos hk, if_pos]
        obtain ⟨e, he, hke⟩ := hk
        exact ⟨e, List.mem_cons_of_mem _ he, hke⟩
      · rw [if_neg hk,
          tblGet_filter_key (fun p : ℕ × ℕ => decide (p.1 ≠ f d)) t k]
        by_cases hd : k.1 = f d
        · rw [if_neg (by simpa using hd), if_pos ⟨d, List.mem_cons_self _ _, hd⟩]
        · rw [if_pos (by simpa using hd), if_neg]
          rintro ⟨e, he, hke⟩
          rcases List.mem_cons.mp he with rfl | he'
          · exact hd hke
          · exact hk ⟨e, he', hke⟩

theorem tblGet_foldl_tblPut_of_no_key {κ V α : Type} [DecidableEq κ]
    (fk : α → κ) (fv : α → V) (ds : List α) (t : List (κ × V)) (k : κ)
    (h : ∀ e ∈ ds, fk e ≠ k) :
    tblGet (ds.foldl (fun a e => tblPut a (fk e) (fv e)) t) k = tblGet t k := by
  induction ds generalizing t with
  | nil => rfl
  | cons d ds ih =>
      rw [List.foldl_cons, ih _ (fun e he => h e (List.mem_cons_of_mem _ he)),
        tblGet_tblPut, if_neg (h d (List.mem_cons_self _ _))]

theorem tblGet_foldl_tblPut_uniq {κ V α : Type} [DecidableEq κ]
    (fk : α → κ) (fv : α → V) (ds : List α) (t : List (κ × V)) (d : α)
    (hd : d ∈ ds) (huniq : ∀ e ∈ ds, fk e = fk d → e = d) :
    tblGet (ds.foldl (fun a e => tblPut a (fk e) (fv e)) t) (fk d) = some (fv d) := by
  induction ds generalizing t with
  | nil => cases hd
  | cons a as ih =>
      rw [List.foldl_cons]
      by_cases hmem : d ∈ as
      · exact ih _ hmem (fun e he hke =>
          huniq e (List.mem_cons_of_mem _ he) hke)
      · rcases List.mem_cons.mp hd with rfl | hd'
        · rw [tblGet_foldl_tblPut_of_no_key]
          · exact tblGet_tblPut_self _ _ _
          · intro e he hke
            exact hmem ((huniq e (List.mem_cons_of_mem _ he) hke) ▸ he)
        · exact absurd hd' hmem

/-! ## Claim C1 -/

/-- C1: refuted on the code — on a fresh node, `setNodeLabels` with label 5
in BOTH the add and the remove set leaves label 5 present in the header
label set but the labelIndex row `(5, nodeId)` ABSENT: the add-side index
puts run before the remove-side index deletes, so the delete wins in
labelIndex while add wins in the header, and the two disagree. -/
theorem C1_setNodeLabels_add_remove_bug :
    (createNode emptyState [] [] [] []).2.1 = 1 ∧
    (setNodeLabels (createNode emptyState [] [] [] []).1 1 [5] [5]).map
      (fun st => (tblGet st.nodes 1, decide ((5, 1) ∈ st.labelIndex)))
      = .ok (some ⟨1, [5], []⟩, false) := by
  constructor
  · rfl
  · rfl

/-! ## Claim C2 -/

/-- C2: refuted on the code — `createNode` writes vector rows without any
validation against `vecTagMeta`.  With dim 2 already registered for tag 7
(by an earlier `upsertVector` of 8 bytes), `createNode` happily stores a
4-byte vector under tag 7, leaving a row whose length is not `4 × dim`. -/
theorem C2_createNode_skips_vector_validation :
    (upsertVector emptyState 1 7 0 [0, 0, 0, 0, 0, 0, 0, 0]).map (fun st =>
      ((tblGet ((createNode st [] [] [] [(7, [9, 9, 9, 9])]).1).vecTagMeta 7),
       (tblGet ((createNode st [] [] [] [(7, [9, 9, 9, 9])]).1).nodeVectors (1, 7))))
      = .ok (some 2, some [9, 9, 9, 9]) := by
  rfl

/-! ## Claim C4 -/

/-- C4: `upsertVector` rejects (with no state change, since a raise aborts
the transaction) a byte length that is not a multiple of 4 or a non-zero
caller dim disagreeing with `len/4`; fails with DimMismatch when the
registered dim differs from `len/4`; registers `len/4` when the tag has no
dim; and in every success case stores exactly the given bytes at
`nodeVectors[id, tagId]`. -/
theorem C4_upsertVector_spec (st : StoreState) (id tagId dim : ℕ)
    (data : List ℕ) :
    (data.length % 4 ≠ 0 → upsertVector st id tagId dim data = .error .invalidArg) ∧
    (data.length % 4 = 0 → dim ≠ 0 → dim ≠ data.length / 4 →
      upsertVector st id tagId dim data = .error .invalidArg) ∧
    (data.length % 4 = 0 → (dim = 0 ∨ dim = data.length / 4) →
      ∀ stored, tblGet st.vecTagMeta tagId = some stored →
        stored ≠ data.length / 4 →
        upsertVector st id tagId dim data = .error .dimMismatch) ∧
    (data.length % 4 = 0 → (dim = 0 ∨ dim = data.length / 4) →
      tblGet st.vecTagMeta tagId = none →
      upsertVector st id tagId dim data = .ok { st with
        vecTagMeta := tblPut st.vecTagMeta tagId (data.length / 4),
        nodeVectors := tblPut st.nodeVectors (id, tagId) data }) ∧
    (data.length % 4 = 0 → (dim = 0 ∨ dim = data.length / 4) →
      tblGet st.vecTagMeta tagId = some (data.length / 4) →
      upsertVector st id tagId dim data = .ok { st with
        nodeVectors := tblPut st.nodeVectors (id, tagId) data }) ∧
    (∀ st2, upsertVector st id tagId dim data = .ok st2 →
      tblGet st2.nodeVectors (id, tagId) = some data) := by
  refine ⟨?_, ?_, ?_, ?_, ?_, ?_⟩
  · intro h
    simp [upsertVector, h]
  · intro h hd hne
    simp [upsertVector, h, hd, hne]
  · intro h hdim stored hst hne
    have hd : ¬(dim ≠ 0 ∧ dim ≠ data.length / 4) := by tauto
    simp [upsertVector, h, hd, hst, hne]
  · intro h hdim hnone
    have hd : ¬(dim ≠ 0 ∧ dim ≠ data.length / 4) := by tauto
    simp [upsertVector, h, hd, hnone]
  · intro h hdim hsome
    have hd : ¬(dim ≠ 0 ∧ dim ≠ data.length / 4) := by tauto
    simp [upsertVector, h, hd, hsome]
  · intro st2 hok
    unfold upsertVector at hok
    by_cases h : data.length % 4 ≠ 0
    · simp [h] at hok
    · simp only [h, if_false] at hok
      by_cases hd : dim ≠ 0 ∧ dim ≠ data.length / 4
      · simp [hd] at hok
      · simp only [hd, if_false] at hok
        rcases hm : tblGet st.vecTagMeta tagId with - | stored
        · rw [hm] at hok
          simp only [Except.ok.injEq] at hok
          rw [← hok]
          exact tblGet_tblPut_self _ _ _
        · rw [hm] at hok
          by_cases hne : stored ≠ data.length / 4
          · simp [hne] at hok
          · simp only [hne, if_false, Except.ok.injEq] at hok
            rw [← hok]
            exact tblGet_tblPut_self _ _ _

/-- C4 witness: a concrete fresh-tag success. -/
theorem C4_upsertVector_spec_witness :
    upsertVector emptyState 1 7 0 [0, 0, 0, 0] = .ok { emptyState with
      vecTagMeta := tblPut emptyState.vecTagMeta 7 1,
      nodeVectors := tblPut emptyState.nodeVectors (1, 7) [0, 0, 0, 0] } :=
  (C4_upsertVector_spec emptyState 1 7 0 [0, 0, 0, 0]).2.2.2.1 rfl (Or.inl rfl) rfl

/-! ## Claim C8 -/

/-- C8: refuted in the `encode(decode(x)) = x` direction — the byte string
`[2, 2]` (tag Bool, payload byte 2) decodes successfully to `true` but
re-encodes to `[2, 1]`: bool decoding is nonzero-is-true while the encoder
only emits 0 or 1. -/
theorem C8_bool_reencode_counterexample :
    decode_value [2, 2] = some (.bool true, []) ∧
    encode_value (.bool true) ≠ [2, 2] := by
  exact ⟨rfl, by decide⟩

/-- C8 amended: the round trip holds in the `decode(encode(x)) = x`
direction for every well-formed value, property, label set and node header;
the `encode(decode(x))` direction holds only for canonically encoded inputs
(a Bool payload byte other than 0/1 is the counterexample). -/
theorem C8_decode_encode_round_trip :
    (∀ v r, wfValue v → decode_value (encode_value v ++ r) = some (v, r)) ∧
    (∀ p r, wfProperty p → decode_property (encode_property p ++ r) = some (p, r)) ∧
    (∀ ls r, wfLabelSet ls → decode_label_set (encode_label_set ls ++ r) = some (ls, r)) ∧
    (∀ h, wfHeader h → decode_node_header (encode_node_header h) = some h) :=
  ⟨decode_encode_value, decode_encode_property, decode_encode_label_set,
    decode_encode_node_header⟩

/-- C8 witness: the round trip evaluated on a concrete header with a label
set and a negative i64 hot property. -/
theorem C8_round_trip_witness :
    decode_node_header (encode_node_header ⟨1, [2, 5], [⟨7, .i64 (-3)⟩]⟩)
      = some ⟨1, [2, 5], [⟨7, .i64 (-3)⟩]⟩ :=
  C8_decode_encode_round_trip.2.2.2 _ (by decide)

/-! ## Claim C9 -/

/-- C9: `getOrCreate(name, true)` returns an id whose `nameOf` is `name`
(using dictionary bijection I3 for the already-interned case), a subsequent
`getOrCreate(name, false)` returns the same id with no state change, and
`getOrCreate(name, false)` on a never-interned name fails with NotFound.
The four other dictionary namespaces in store.cpp are verbatim copies of
the label one. -/
theorem C9_label_dictionary_spec (st : StoreState) (name : String)
    (hbij : ∀ p ∈ st.labelsByName, tblGet st.labelIds p.2 = some p.1) :
    (∃ st2 id, getOrCreateLabelId st name true = .ok (st2, id) ∧
      getLabelName st2 id = .ok name ∧
      getOrCreateLabelId st2 name false = .ok (st2, id)) ∧
    (tblGet st.labelsByName name = none →
      getOrCreateLabelId st name false = .error .notFound) := by
  constructor
  · rcases hlook : tblGet st.labelsByName name with - | id
    · refine ⟨{ st with
        labelSeq := st.labelSeq + 1,
        labelIds := tblPut st.labelIds (st.labelSeq + 1) name,
        labelsByName := tblPut st.labelsByName name (st.labelSeq + 1) },
        st.labelSeq + 1, ?_, ?_, ?_⟩
      · simp [getOrCreateLabelId, hlook]
      · simp [getLabelName, tblGet_tblPut_self]
      · simp [getOrCreateLabelId, tblGet_tblPut_self]
    · refine ⟨st, id, ?_, ?_, ?_⟩
      · simp [getOrCreateLabelId, hlook]
      · have hmem := tblGet_mem hlook
        simp [getLabelName, hbij (name, id) hmem]
      · simp [getOrCreateLabelId, hlook]
  · intro hnone
    simp [getOrCreateLabelId, hnone]

/-- C9 witness: the fresh environment and the name "a". -/
theorem C9_label_dictionary_spec_witness :
    (∃ st2 id, getOrCreateLabelId emptyState "a" true = .ok (st2, id) ∧
      getLabelName st2 id = .ok "a" ∧
      getOrCreateLabelId st2 "a" false = .ok (st2, id)) ∧
    (tblGet emptyState.labelsByName "a" = none →
      getOrCreateLabelId emptyState "a" false = .error .notFound) :=
  C9_label_dictionary_spec emptyState "a" (by simp [emptyState])

/-! ## Claim C10 -/

/-- C10: `addEdge` never checks that src or dst exists — on ANY state, with
any pair of ids (in particular ids with no node header row), it succeeds,
allocates `edgeSeq + 1`, writes the `edgesById` record, both adjacency
rows, and the property rows, and leaves the node bucket untouched. -/
theorem C10_addEdge_no_endpoint_check (st : StoreState) (src dst typeId : ℕ)
    (props : List Property) :
    (addEdge st src dst typeId props).2 = ⟨st.edgeSeq + 1, src, dst⟩ ∧
    tblGet (addEdge st src dst typeId props).1.edgesById (st.edgeSeq + 1)
      = some ⟨st.edgeSeq + 1, src, dst⟩ ∧
    (⟨src, typeId, dst, st.edgeSeq + 1⟩ : IdxRow)
      ∈ (addEdge st src dst typeId props).1.edgesBySrcType ∧
    (⟨dst, typeId, src, st.edgeSeq + 1⟩ : IdxRow)
      ∈ (addEdge st src dst typeId props).1.edgesByDstType ∧
    (∀ p ∈ props, (∀ q ∈ props, q.keyId = p.keyId → q = p) →
      tblGet (addEdge st src dst typeId props).1.edgeProps
        (st.edgeSeq + 1, p.keyId) = some p.val) ∧
    (addEdge st src dst typeId props).1.nodes = st.nodes := by
  refine ⟨rfl, tblGet_tblPut_self _ _ _, ?_, ?_, ?_, rfl⟩
  · exact (mem_idxPut _ _ _).mpr (Or.inr rfl)
  · exact (mem_idxPut _ _ _).mpr (Or.inr rfl)
  · intro p hp huniq
    exact tblGet_foldl_tblPut_uniq
      (fun q => (st.edgeSeq + 1, q.keyId)) Property.val props _ p hp
      (fun e he hke => huniq e he (by simpa using congrArg Prod.snd hke))

/-- C10 witness: both endpoints absent from the fresh environment. -/
theorem C10_addEdge_no_endpoint_check_witness :
    tblGet emptyState.nodes 10 = none ∧ tblGet emptyState.nodes 20 = none ∧
    tblGet (addEdge emptyState 10 20 3 [⟨4, .null⟩]).1.edgeProps (1, 4)
      = some .null :=
  ⟨rfl, rfl,
    (C10_addEdge_no_endpoint_check emptyState 10 20 3 [⟨4, .null⟩]).2.2.2.2.1
      ⟨4, .null⟩ (by decide) (by decide)⟩

/-! ## Claim C7 -/

theorem mem_replaceFirst_of_ne (ps : List Property) (a p : Property)
    (hne : a.keyId ≠ p.keyId) (hp : p ∈ ps) : p ∈ replaceFirst ps a := by
  induction ps with
  | nil => cases hp
  | cons h t ih =>
      rw [replaceFirst]
      by_cases hh : h.keyId = a.keyId
      · rw [if_pos hh]
        rcases List.mem_cons.mp hp with rfl | hp'
        · exact absurd hh.symm hne
        · exact List.mem_cons_of_mem _ hp'
      · rw [if_neg hh]
        rcases List.mem_cons.mp hp with rfl | hp'
        · exact List.mem_cons_self _ _
        · exact List.mem_cons_of_mem _ (ih hp')

theorem mem_replaceFirst_cases (ps : List Property) (a q : Property)
    (hq : q ∈ replaceFirst ps a) :
    q ∈ ps ∨ ∃ hp ∈ ps, hp.keyId = a.keyId ∧ q = ⟨hp.keyId, a.val⟩ := by
  induction ps with
  | nil => cases hq
  | cons h t ih =>
      rw [replaceFirst] at hq
      by_cases hh : h.keyId = a.keyId
      · rw [if_pos hh] at hq
        rcases List.mem_cons.mp hq with rfl | hq'
        · exact Or.inr ⟨h, List.mem_cons_self _ _, hh, rfl⟩
        · exact Or.inl (List.mem_cons_of_mem _ hq')
      · rw [if_neg hh] at hq
        rcases List.mem_cons.mp hq with rfl | hq'
        · exact Or.inl (List.mem_cons_self _ _)
        · rcases ih hq' with h1 | ⟨hp, hmem, hkey, heq⟩
          · exact Or.inl (List.mem_cons_of_mem _ h1)
          · exact Or.inr ⟨hp, List.mem_cons_of_mem _ hmem, hkey, heq⟩

theorem mem_replaceFirst_self (ps : List Property) (p : Property)
    (hinv : ∀ q ∈ ps, q.keyId = p.keyId → q = p)
    (hany : ps.any (fun hp => decide (hp.keyId = p.keyId)) = true) :
    p ∈ replaceFirst ps p := by
  induction ps with
  | nil => simp at hany
  | cons h t ih =>
      rw [replaceFirst]
      by_cases hh : h.keyId = p.keyId
      · rw [if_pos hh]
        have heq : h = p := hinv h (List.mem_cons_self _ _) hh
        subst heq
        exact List.mem_cons_self _ _
      · rw [if_neg hh]
        refine List.mem_cons_of_mem _ (ih ?_ ?_)
        · exact fun q hq => hinv q (List.mem_cons_of_mem _ hq)
        · simp only [List.any_cons, Bool.or_eq_true] at hany
          rcases hany with h1 | h1
          · exact absurd (by simpa using h1) hh
          · exact h1

theorem mem_setHotOne_of_ne (ps : List Property) (a p : Property)
    (hne : a.keyId ≠ p.keyId) (hp : p ∈ ps) : p ∈ setHotOne ps a := by
  unfold setHotOne
  split
  · exact mem_replaceFirst_of_ne ps a p hne hp
  · exact List.mem_append_left _ hp

theorem mem_setHotOne_self (ps : List Property) (p : Property)
    (hinv : ∀ q ∈ ps, q.keyId = p.keyId → q = p) : p ∈ setHotOne ps p := by
  unfold setHotOne
  split
  · next hany => exact mem_replaceFirst_self ps p hinv hany
  · exact List.mem_append_right _ (List.mem_cons_self _ _)

theorem inv_setHotOne (ps : List Property) (a p : Property)
    (hinv : ∀ q ∈ ps, q.keyId = p.keyId → q = p)
    (ha : a.keyId = p.keyId → a = p) :
    ∀ q ∈ setHotOne ps a, q.keyId = p.keyId → q = p := by
  intro q hq hkq
  unfold setHotOne at hq
  split at hq
  · rcases mem_replaceFirst_cases ps a q hq with h1 | ⟨hp1, hmem, hkey, heq⟩
    · exact hinv q h1 hkq
    · subst heq
      have hap : a = p := ha (hkey ▸ hkq)
      have hp1p : hp1 = p := hinv hp1 hmem hkq
      rw [hp1p, hap]
  · rcases List.mem_append.mp hq with h1 | h1
    · exact hinv q h1 hkq
    · have : q = a := by simpa using h1
      subst this
      exact ha hkq

theorem mem_foldl_setHotOne_keep (sets : List Property) (p : Property)
    (huniq : ∀ q ∈ sets, q.keyId = p.keyId → q = p) :
    ∀ ps, p ∈ ps → (∀ q ∈ ps, q.keyId = p.keyId → q = p) →
      p ∈ sets.foldl setHotOne ps := by
  induction sets with
  | nil => exact fun ps hp _ => hp
  | cons a as ih =>
      intro ps hp hinv
      rw [List.foldl_cons]
      have ha : a.keyId = p.keyId → a = p :=
        fun h => huniq a (List.mem_cons_self _ _) h
      refine ih (fun q hq => huniq q (List.mem_cons_of_mem _ hq)) _ ?_
        (inv_setHotOne ps a p hinv ha)
      by_cases hk : a.keyId = p.keyId
      · rw [ha hk]
        exact mem_setHotOne_self ps p hinv
      · exact mem_setHotOne_of_ne ps a p hk hp

theorem mem_foldl_setHotOne (sets : List Property) (p : Property)
    (hp : p ∈ sets) (huniq : ∀ q ∈ sets, q.keyId = p.keyId → q = p) :
    ∀ ps, (∀ q ∈ ps, q.keyId = p.keyId → q = p) →
      p ∈ sets.foldl setHotOne ps := by
  induction sets with
  | nil => cases hp
  | cons a as ih =>
      intro ps hinv
      rw [List.foldl_cons]
      have ha : a.keyId = p.keyId → a = p :=
        fun h => huniq a (List.mem_cons_self _ _) h
      have hinv' := inv_setHotOne ps a p hinv ha
      rcases List.mem_cons.mp hp with rfl | hp'
      · exact mem_foldl_setHotOne_keep as p
          (fun q hq => huniq q (List.mem_cons_of_mem _ hq)) _
          (mem_setHotOne_self ps p hinv) hinv'
      · exact ih hp' (fun q hq => huniq q (List.mem_cons_of_mem _ hq)) _ hinv'

/-- C7: refuted on the code for cold properties — a key in both `unsetKeys`
and `setCold` ends ABSENT from nodeColdProps, because the cold sets are
written before the cold unset deletes them. -/
theorem C7_cold_set_unset_counterexample :
    (upsertNodeProps (createNode emptyState [] [] [] []).1 1 []
      [⟨7, .i64 5⟩] [7]).map (fun st => tblGet st.nodeColdProps (1, 7))
      = .ok none := by
  rfl

/-- C7 amended: within one `upsertNodeProps`, for a key in both `unsetKeys`
and `setHot` the hot unset runs before the hot set, so the header ends with
the property present carrying the set value; but for a key in both
`unsetKeys` and `setCold` the cold set is written first and the unset
delete runs afterwards, so the key ends absent from nodeColdProps. -/
theorem C7_upsertNodeProps_unset_set_order (st : StoreState) (id k : ℕ)
    (hdr : NodeHeader) (setHot setCold : List Property)
    (unsetKeys : List ℕ) (st2 : StoreState)
    (hhdr : tblGet st.nodes id = some hdr)
    (hrun : upsertNodeProps st id setHot setCold unsetKeys = .ok st2)
    (hk : k ∈ unsetKeys) :
    (∀ p ∈ setHot, p.keyId = k → (∀ q ∈ setHot, q.keyId = p.keyId → q = p) →
      ∃ hdr2, tblGet st2.nodes id = some hdr2 ∧ p ∈ hdr2.hotProps) ∧
    tblGet st2.nodeColdProps (id, k) = none := by
  unfold upsertNodeProps at hrun
  rw [hhdr] at hrun
  simp only [Except.ok.injEq] at hrun
  subst hrun
  constructor
  · intro p hp hpk huniq
    refine ⟨_, tblGet_tblPut_self _ _ _, ?_⟩
    refine mem_foldl_setHotOne setHot p hp huniq _ ?_
    intro q hq hkq
    have hmem := List.mem_filter.mp hq
    exact absurd hk (by simpa [hkq, hpk] using hmem.2)
  · rw [tblGet_foldl_tblDel (fun u => ((id, u) : ℕ × ℕ)),
      if_pos ⟨k, hk, rfl⟩]

/-- C7 witness: a concrete call with key 7 both unset and hot-set and key 8
both unset and cold-set; the hot key survives with the set value, the cold
key is gone. -/
theorem C7_upsertNodeProps_witness :
    tblGet ((upsertNodeProps (createNode emptyState [] [] [] []).1 1
      [⟨7, .i64 9⟩] [⟨8, .null⟩] [7, 8]).toOption.getD emptyState).nodeColdProps
      (1, 7) = none :=
  (C7_upsertNodeProps_unset_set_order (createNode emptyState [] [] [] []).1 1 7
    ⟨1, [], []⟩ [⟨7, .i64 9⟩] [⟨8, .null⟩] [7, 8]
    ((upsertNodeProps (createNode emptyState [] [] [] []).1 1
      [⟨7, .i64 9⟩] [⟨8, .null⟩] [7, 8]).toOption.getD emptyState)
    rfl rfl (by decide)).2

/-! ## Claim C6 -/

theorem find?_eq_some_of_uniq {α : Type} (p : α → Bool) (l : List α) (x : α)
    (hx : x ∈ l) (hpx : p x = true) (huniq : ∀ y ∈ l, p y = true → y = x) :
    l.find? p = some x := by
  induction l with
  | nil => cases hx
  | cons a t ih =>
      by_cases hpa : p a = true
      · rw [List.find?_cons_of_pos _ hpa]
        exact congrArg some (huniq a (List.mem_cons_self _ _) hpa)
      · rw [List.find?_cons_of_neg _ (by simpa using hpa)]
        rcases List.mem_cons.mp hx with rfl | hx'
        · exact absurd hpx hpa
        · exact ih hx' (fun y hy hpy => huniq y (List.mem_cons_of_mem _ hy) hpy)

/-- C6: refuted on the code for an edge whose type id is 0 (constructible
through `Store::addEdge`, which takes the raw type id unchecked): the
`foundType != 0` guard in `deleteEdge` treats type 0 as "row not found" and
skips the adjacency deletions, leaving both index rows behind while the
canonical record is removed. -/
theorem C6_deleteEdge_type_zero_counterexample :
    tblGet (deleteEdge (addEdge emptyState 10 20 0 []).1 1).edgesById 1 = none ∧
    (⟨10, 0, 20, 1⟩ : IdxRow)
      ∈ (deleteEdge (addEdge emptyState 10 20 0 []).1 1).edgesBySrcType ∧
    (⟨20, 0, 10, 1⟩ : IdxRow)
      ∈ (deleteEdge (addEdge emptyState 10 20 0 []).1 1).edgesByDstType := by
  refine ⟨rfl, ?_, ?_⟩ <;> decide

/-- C6 amended: for an edge present in `edgesById` whose adjacency rows
carry a NON-ZERO type id (always the case for dictionary-issued type ids)
and are unique for the `(src, dst, id)` triple, `deleteEdge` removes the
`edgesById` row, both adjacency rows, and every `edgeProps` row with major
id `e`; when `e` is absent from `edgesById` the call succeeds without
error, merely clearing the (empty) `edgeProps` prefix. -/
theorem C6_deleteEdge_spec (st : StoreState) (e : ℕ) :
    (∀ ref t, tblGet st.edgesById e = some ref → ref.id = e → t ≠ 0 →
      (⟨ref.src, t, ref.dst, e⟩ : IdxRow) ∈ st.edgesBySrcType →
      (∀ r ∈ st.edgesBySrcType, r.major = ref.src → r.minor = ref.dst →
        r.edge = e → r = ⟨ref.src, t, ref.dst, e⟩) →
      tblGet (deleteEdge st e).edgesById e = none ∧
      (⟨ref.src, t, ref.dst, e⟩ : IdxRow) ∉ (deleteEdge st e).edgesBySrcType ∧
      (⟨ref.dst, t, ref.src, e⟩ : IdxRow) ∉ (deleteEdge st e).edgesByDstType ∧
      (∀ k, tblGet (deleteEdge st e).edgeProps (e, k) = none)) ∧
    (tblGet st.edgesById e = none →
      deleteEdge st e = { st with
        edgesById := tblDel st.edgesById e,
        edgeProps := st.edgeProps.filter fun p => decide (p.1.1 ≠ e) }) := by
  constructor
  · intro ref t href hrefid ht hmem huniq
    have hfind : ((st.edgesBySrcType.filter
        fun (r : IdxRow) => decide (r.major = ref.src)).find?
        fun (r : IdxRow) => decide (r.minor = ref.dst ∧ r.edge = e))
        = some ⟨ref.src, t, ref.dst, e⟩ := by
      apply find?_eq_some_of_uniq
      · exact List.mem_filter.mpr ⟨hmem, by simp⟩
      · simp
      · intro y hy hpy
        have hy' := List.mem_filter.mp hy
        simp only [decide_eq_true_eq] at hpy
        exact huniq y hy'.1 (by simpa using hy'.2) hpy.1 hpy.2
    have hprops : ∀ k, tblGet ((deleteEdge st e).edgeProps) (e, k) = none := by
      intro k
      show tblGet (st.edgeProps.filter fun p => decide (p.1.1 ≠ e)) (e, k) = none
      rw [tblGet_filter_key (fun q : ℕ × ℕ => decide (q.1 ≠ e)) st.edgeProps (e, k)]
      simp
    refine ⟨?_, ?_, ?_, hprops⟩
    · show tblGet (tblDel st.edgesById e) e = none
      rw [tblGet_tblDel, if_pos rfl]
    · simp only [deleteEdge, href, hfind, Option.elim_some, hrefid, ne_eq, ht,
        not_false_eq_true, if_true, mem_idxDel, not_and, Decidable.not_not]
      intro hmem2
      trivial
    · simp only [deleteEdge, href, hfind, Option.elim_some, hrefid, ne_eq, ht,
        not_false_eq_true, if_true, mem_idxDel, not_and, Decidable.not_not]
      intro hmem2
      trivial
  · intro hnone
    unfold deleteEdge
    rw [hnone]

/-- C6 witness: a type-3 edge is fully removed. -/
theorem C6_deleteEdge_spec_witness :
    tblGet (deleteEdge (addEdge emptyState 10 20 3 []).1 1).edgesById 1 = none ∧
    (⟨10, 3, 20, 1⟩ : IdxRow)
      ∉ (deleteEdge (addEdge emptyState 10 20 3 []).1 1).edgesBySrcType ∧
    (⟨20, 3, 10, 1⟩ : IdxRow)
      ∉ (deleteEdge (addEdge emptyState 10 20 3 []).1 1).edgesByDstType :=
  have h := (C6_deleteEdge_spec (addEdge emptyState 10 20 3 []).1 1).1
    ⟨1, 10, 20⟩ 3 rfl rfl (by decide) (by decide) (by decide)
  ⟨h.1, h.2.1, h.2.2.1⟩

/-! ## Claim C3 -/

theorem mirror_mirror (r : IdxRow) : r.mirror.mirror = r := rfl

theorem mem_dnSrcRows (st : StoreState) (n : ℕ) (r : IdxRow) :
    r ∈ dnSrcRows st n ↔ r ∈ st.edgesBySrcType ∧ r.major = n := by
  simp [dnSrcRows]

theorem mem_dnDst1 (st : StoreState) (n : ℕ) (x : IdxRow) :
    x ∈ dnDst1 st n ↔ x ∈ st.edgesByDstType ∧
      ∀ r ∈ dnSrcRows st n, x ≠ r.mirror :=
  mem_foldl_idxDel IdxRow.mirror _ _ x

theorem mem_dnDstRows (st : StoreState) (n : ℕ) (x : IdxRow) :
    x ∈ dnDstRows st n ↔ x ∈ dnDst1 st n ∧ x.major = n := by
  simp [dnDstRows]

theorem edge_mem_dnCollected_src (st : StoreState) (n : ℕ) (r : IdxRow)
    (hr : r ∈ st.edgesBySrcType) (hmaj : r.major = n) :
    r.edge ∈ dnCollected st n :=
  List.mem_append_left _
    (List.mem_map_of_mem _ ((mem_dnSrcRows st n r).mpr ⟨hr, hmaj⟩))

theorem edge_mem_dnCollected_dst (st : StoreState) (n : ℕ) (x : IdxRow)
    (hx : x ∈ st.edgesByDstType) (hmaj : x.major = n) (hmin : x.minor ≠ n) :
    x.edge ∈ dnCollected st n := by
  refine List.mem_append_right _ (List.mem_map_of_mem _ ?_)
  refine (mem_dnDstRows st n x).mpr ⟨(mem_dnDst1 st n x).mpr ⟨hx, ?_⟩, hmaj⟩
  intro r hr heq
  have hrmaj : r.major = n := ((mem_dnSrcRows st n r).mp hr).2
  have : x.minor = n := by rw [heq, IdxRow.mirror, hrmaj]
  exact hmin this

/-- C3: on a store satisfying the cross-index invariants (label-index rows
of `n` are backed by the header; adjacency rows are symmetric; every
`edgesById` record has a src-index row), after `deleteNode n`:
`getNode n` is NotFound; no row keyed by `n` remains in nodes,
nodeColdProps, nodeVectors or labelIndex; no adjacency row has `n` as major
or minor; no `edgesById` record has `n` as src or dst; and every edge that
had `n` as an endpoint has lost all its edgeProps rows. -/
theorem C3_deleteNode_spec (st : StoreState) (n : ℕ) (hdr : NodeHeader)
    (hn : tblGet st.nodes n = some hdr)
    (hlab : ∀ p ∈ st.labelIndex, p.2 = n → p.1 ∈ hdr.labels)
    (hs1 : ∀ r ∈ st.edgesBySrcType, r.mirror ∈ st.edgesByDstType)
    (hs2 : ∀ r ∈ st.edgesByDstType, r.mirror ∈ st.edgesBySrcType)
    (hid : ∀ p ∈ st.edgesById, ∃ r ∈ st.edgesBySrcType,
      r.major = p.2.src ∧ r.minor = p.2.dst ∧ r.edge = p.1) :
    getNode (deleteNode st n) n = .error .notFound ∧
    tblGet (deleteNode st n).nodes n = none ∧
    (∀ k, tblGet (deleteNode st n).nodeColdProps (n, k) = none) ∧
    (∀ tg, tblGet (deleteNode st n).nodeVectors (n, tg) = none) ∧
    (∀ L, (L, n) ∉ (deleteNode st n).labelIndex) ∧
    (∀ r ∈ (deleteNode st n).edgesBySrcType, r.major ≠ n ∧ r.minor ≠ n) ∧
    (∀ r ∈ (deleteNode st n).edgesByDstType, r.major ≠ n ∧ r.minor ≠ n) ∧
    (∀ e ref, tblGet (deleteNode st n).edgesById e = some ref →
      ref.src ≠ n ∧ ref.dst ≠ n) ∧
    (∀ e ref, tblGet st.edgesById e = some ref →
      ref.src = n ∨ ref.dst = n →
      ∀ k, tblGet (deleteNode st n).edgeProps (e, k) = none) := by
  have hnodes : (deleteNode st n).nodes = tblDel (tblDel st.nodes n) n := rfl
  have hcold : (deleteNode st n).nodeColdProps
      = st.nodeColdProps.filter fun p => decide (p.1.1 ≠ n) := rfl
  have hvec : (deleteNode st n).nodeVectors
      = st.nodeVectors.filter fun p => decide (p.1.1 ≠ n) := rfl
  have hsrc : (deleteNode st n).edgesBySrcType
      = (dnDstRows st n).foldl (fun t r => idxDel t r.mirror)
        (st.edgesBySrcType.filter fun r => decide (r.major ≠ n)) := rfl
  have hdst : (deleteNode st n).edgesByDstType
      = (dnDst1 st n).filter fun r => decide (r.major ≠ n) := rfl
  have hebi : (deleteNode st n).edgesById
      = (dnCollected st n).foldl (fun t e => tblDel t e) st.edgesById := rfl
  have heprops : (deleteNode st n).edgeProps
      = (dnCollected st n).foldl
        (fun t e => t.filter fun p => decide (p.1.1 ≠ e)) st.edgeProps := rfl
  have hli : (deleteNode st n).labelIndex
      = hdr.labels.foldl (fun t L => idxDel t (L, n)) st.labelIndex := by
    simp only [deleteNode, hn]
  have hgone : tblGet (deleteNode st n).nodes n = none := by
    rw [hnodes, tblGet_tblDel, if_pos rfl]
  have hcol : ∀ e ref, tblGet st.edgesById e = some ref →
      ref.src = n ∨ ref.dst = n → e ∈ dnCollected st n := by
    intro e ref hget hor
    obtain ⟨r, hrmem, hrs, hrd, hre⟩ := hid (e, ref) (tblGet_mem hget)
    rcases hor with hsrcn | hdstn
    · have hc := edge_mem_dnCollected_src st n r hrmem (hrs.trans hsrcn)
      rwa [hre] at hc
    · by_cases hsrcn : ref.src = n
      · have hc := edge_mem_dnCollected_src st n r hrmem (hrs.trans hsrcn)
        rwa [hre] at hc
      · have hc := edge_mem_dnCollected_dst st n r.mirror (hs1 r hrmem)
          (show r.minor = n from hrd.trans hdstn)
          (show r.major ≠ n from hrs ▸ hsrcn)
        have hc2 : r.edge ∈ dnCollected st n := hc
        rwa [hre] at hc2
  refine ⟨?_, hgone, ?_, ?_, ?_, ?_, ?_, ?_, ?_⟩
  · simp [getNode, hgone]
  · intro k
    rw [hcold, tblGet_filter_key (fun q : ℕ × ℕ => decide (q.1 ≠ n))]
    simp
  · intro tg
    rw [hvec, tblGet_filter_key (fun q : ℕ × ℕ => decide (q.1 ≠ n))]
    simp
  · intro L hmem
    rw [hli, mem_foldl_idxDel (fun L' => ((L', n) : ℕ × ℕ))] at hmem
    exact hmem.2 L (hlab (L, n) hmem.1 rfl) rfl
  · intro r hr
    rw [hsrc, mem_foldl_idxDel IdxRow.mirror] at hr
    obtain ⟨hr1, hr2⟩ := hr
    have hr3 := List.mem_filter.mp hr1
    have hrmaj : r.major ≠ n := by simpa using hr3.2
    refine ⟨hrmaj, ?_⟩
    intro hminn
    have hmir : r.mirror ∈ dnDstRows st n := by
      refine (mem_dnDstRows st n r.mirror).mpr
        ⟨(mem_dnDst1 st n r.mirror).mpr ⟨hs1 r hr3.1, ?_⟩, hminn⟩
      intro d hd heq
      have hdmaj : d.major = n := ((mem_dnSrcRows st n d).mp hd).2
      have : r.major = n := by
        have := congrArg IdxRow.minor heq
        simpa [IdxRow.mirror, hdmaj] using this
      exact hrmaj this
    exact hr2 r.mirror hmir (mirror_mirror r).symm
  · intro r hr
    rw [hdst] at hr
    have hr3 := List.mem_filter.mp hr
    have hrmaj : r.major ≠ n := by simpa using hr3.2
    refine ⟨hrmaj, ?_⟩
    intro hminn
    have hr4 := (mem_dnDst1 st n r).mp hr3.1
    have hmir : r.mirror ∈ dnSrcRows st n :=
      (mem_dnSrcRows st n r.mirror).mpr ⟨hs2 r hr4.1, hminn⟩
    exact hr4.2 r.mirror hmir (mirror_mirror r).symm
  · intro e ref hget
    rw [hebi, tblGet_foldl_tblDel (fun d => d)] at hget
    by_cases hin : ∃ d ∈ dnCollected st n, e = d
    · rw [if_pos hin] at hget
      cases hget
    · rw [if_neg hin] at hget
      constructor
      · intro hsrcn
        exact hin ⟨e, hcol e ref hget (Or.inl hsrcn), rfl⟩
      · intro hdstn
        exact hin ⟨e, hcol e ref hget (Or.inr hdstn), rfl⟩
  · intro e ref hget hor k
    rw [heprops, tblGet_foldl_filter_fst (fun d => d),
      if_pos ⟨e, hcol e ref hget hor, rfl⟩]

/-- C3 witness: three labelled nodes, edges 1→2, 2→3, 1→3; node 2 deleted.
Its header is gone and the label-index row (1, 2) with it. -/
theorem C3_deleteNode_spec_witness :
    getNode (deleteNode (addEdge (addEdge (addEdge
      (createNode (createNode (createNode emptyState
        [1] [] [] []).1 [1, 2] [] [] []).1 [2] [] [] []).1
      1 2 5 []).1 2 3 6 []).1 1 3 7 []).1 2) 2 = .error .notFound ∧
    ((1 : ℕ), (2 : ℕ)) ∉ (deleteNode (addEdge (addEdge (addEdge
      (createNode (createNode (createNode emptyState
        [1] [] [] []).1 [1, 2] [] [] []).1 [2] [] [] []).1
      1 2 5 []).1 2 3 6 []).1 1 3 7 []).1 2).labelIndex :=
  have h := C3_deleteNode_spec (addEdge (addEdge (addEdge
      (createNode (createNode (createNode emptyState
        [1] [] [] []).1 [1, 2] [] [] []).1 [2] [] [] []).1
      1 2 5 []).1 2 3 6 []).1 1 3 7 []).1 2 ⟨2, [1, 2], []⟩
    rfl (by decide) (by decide) (by decide) (by decide)
  ⟨h.1, h.2.2.2.2.1 1⟩

/-! ## Claim C5: top-k heap lemmas -/

theorem length_insertAsc {S : Type} [LinearOrder S] (c : ℕ × S)
    (l : List (ℕ × S)) : (insertAsc c l).length = l.length + 1 := by
  induction l with
  | nil => rfl
  | cons h t ih =>
      rw [insertAsc]
      split_ifs
      · rfl
      · simp [ih]

theorem mem_insertAsc {S : Type} [LinearOrder S] (c x : ℕ × S)
    (l : List (ℕ × S)) : x ∈ insertAsc c l ↔ x = c ∨ x ∈ l := by
  induction l with
  | nil => simp [insertAsc]
  | cons h t ih =>
      rw [insertAsc]
      split_ifs
      · simp [List.mem_cons]
      · simp only [List.mem_cons, ih]
        tauto

theorem pairwise_insertAsc {S : Type} [LinearOrder S] (c : ℕ × S)
    (l : List (ℕ × S)) (hl : List.Pairwise (fun a b : ℕ × S => a.2 ≤ b.2) l) :
    List.Pairwise (fun a b : ℕ × S => a.2 ≤ b.2) (insertAsc c l) := by
  induction l with
  | nil => simp [insertAsc]
  | cons h t ih =>
      rw [insertAsc]
      rcases List.pairwise_cons.mp hl with ⟨hhead, htail⟩
      split_ifs with hlt
      · refine List.pairwise_cons.mpr ⟨?_, hl⟩
        intro b hb
        rcases List.mem_cons.mp hb with rfl | hb'
        · exact le_of_lt hlt
        · exact le_trans (le_of_lt hlt) (hhead b hb')
      · refine List.pairwise_cons.mpr ⟨?_, ih htail⟩
        intro b hb
        rcases (mem_insertAsc c b t).mp hb with rfl | hb'
        · exact le_of_not_lt hlt
        · exact hhead b hb'

/-- One `consider` step preserves the size-k min-heap invariants. -/
theorem consider_step {S : Type} [LinearOrder S] (k : ℕ) (hk : k ≠ 0)
    (heap : List (ℕ × S)) (c : ℕ × S) (m : ℕ)
    (hlen : heap.length = min k m)
    (hpw : List.Pairwise (fun a b : ℕ × S => a.2 ≤ b.2) heap) :
    (consider k heap c).length = min k (m + 1) ∧
    List.Pairwise (fun a b : ℕ × S => a.2 ≤ b.2) (consider k heap c) ∧
    (∀ x ∈ consider k heap c, x ∈ heap ∨ x = c) ∧
    (c ∈ consider k heap c ∨ ((consider k heap c).length = k ∧
      ∀ h ∈ consider k heap c, c.2 ≤ h.2)) ∧
    (∀ x ∈ heap, x ∈ consider k heap c ∨ ((consider k heap c).length = k ∧
      ∀ h ∈ consider k heap c, x.2 ≤ h.2)) ∧
    (heap.length = k → ∀ lo : S, (∀ h ∈ heap, lo ≤ h.2) →
      ∀ h ∈ consider k heap c, lo ≤ h.2) := by
  rw [consider.eq_def]
  by_cases hfull : heap.length < k
  · rw [if_pos hfull]
    refine ⟨?_, pairwise_insertAsc c heap hpw, ?_, ?_, ?_, ?_⟩
    · rw [length_insertAsc]
      omega
    · intro x hx
      rcases (mem_insertAsc c x heap).mp hx with rfl | hx'
      · exact Or.inr rfl
      · exact Or.inl hx'
    · exact Or.inl ((mem_insertAsc c c heap).mpr (Or.inl rfl))
    · intro x hx
      exact Or.inl ((mem_insertAsc c x heap).mpr (Or.inr hx))
    · intro hlenk
      omega
  · rw [if_neg hfull]
    have hlenk : heap.length = k := by omega
    cases heap with
    | nil =>
        simp at hlenk
        exact absurd hlenk.symm hk
    | cons m0 rest =>
        rcases List.pairwise_cons.mp hpw with ⟨hhead, htail⟩
        have hred : (match m0 :: rest with
            | [] => ([] : List (ℕ × S))
            | m :: rest => if m.2 < c.2 then insertAsc c rest else m :: rest)
            = if m0.2 < c.2 then insertAsc c rest else m0 :: rest := rfl
        rw [hred]
        by_cases hlt : m0.2 < c.2
        · rw [if_pos hlt]
          have hlr : (insertAsc c rest).length = k := by
            rw [length_insertAsc]
            simpa using hlenk
          refine ⟨?_, pairwise_insertAsc c rest htail, ?_, ?_, ?_, ?_⟩
          · rw [hlr]
            omega
          · intro x hx
            rcases (mem_insertAsc c x rest).mp hx with rfl | hx'
            · exact Or.inr rfl
            · exact Or.inl (List.mem_cons_of_mem _ hx')
          · exact Or.inl ((mem_insertAsc c c rest).mpr (Or.inl rfl))
          · intro x hx
            rcases List.mem_cons.mp hx with rfl | hx'
            · refine Or.inr ⟨hlr, ?_⟩
              intro h hh
              rcases (mem_insertAsc c h rest).mp hh with rfl | hh'
              · exact le_of_lt hlt
              · exact hhead h hh'
            · exact Or.inl ((mem_insertAsc c x rest).mpr (Or.inr hx'))
          · intro _ lo hlo h hh
            rcases (mem_insertAsc c h rest).mp hh with rfl | hh'
            · exact le_of_lt (lt_of_le_of_lt (hlo m0 (List.mem_cons_self _ _)) hlt)
            · exact hlo h (List.mem_cons_of_mem _ hh')
        · rw [if_neg hlt]
          refine ⟨?_, hpw, ?_, ?_, ?_, ?_⟩
          · rw [hlenk]
            omega
          · intro x hx
            exact Or.inl hx
          · refine Or.inr ⟨hlenk, ?_⟩
            intro h hh
            rcases List.mem_cons.mp hh with rfl | hh'
            · exact le_of_not_lt hlt
            · exact le_trans (le_of_not_lt hlt) (hhead h hh')
          · intro x hx
            exact Or.inl hx
          · intro _ lo hlo h hh
            exact hlo h hh

/-- The heap invariants carried through the whole scan. -/
theorem consider_foldl_inv {S : Type} [LinearOrder S] (k : ℕ) (hk : k ≠ 0)
    (rows : List (ℕ × S)) :
    ∀ (heap seen : List (ℕ × S)),
      heap.length = min k seen.length →
      List.Pairwise (fun a b : ℕ × S => a.2 ≤ b.2) heap →
      (∀ c ∈ heap, c ∈ seen) →
      (∀ c ∈ seen, c ∈ heap ∨ (heap.length = k ∧ ∀ h ∈ heap, c.2 ≤ h.2)) →
      (rows.foldl (consider k) heap).length = min k (seen.length + rows.length) ∧
      List.Pairwise (fun a b : ℕ × S => a.2 ≤ b.2) (rows.foldl (consider k) heap) ∧
      (∀ c ∈ rows.foldl (consider k) heap, c ∈ seen ∨ c ∈ rows) ∧
      (∀ c, (c ∈ seen ∨ c ∈ rows) → c ∈ rows.foldl (consider k) heap ∨
        ∀ h ∈ rows.foldl (consider k) heap, c.2 ≤ h.2) := by
  induction rows with
  | nil =>
      intro heap seen h1 h2 h3 h4
      refine ⟨by simpa using h1, h2, ?_, ?_⟩
      · intro c hc
        exact Or.inl (h3 c hc)
      · intro c hc
        rcases hc with hc | hc
        · rcases h4 c hc with h | ⟨-, h⟩
          · exact Or.inl h
          · exact Or.inr h
        · cases hc
  | cons c cs ih =>
      intro heap seen h1 h2 h3 h4
      obtain ⟨s1, s2, s3, s4, s5, s6⟩ := consider_step k hk heap c seen.length h1 h2
      have hlen' : (consider k heap c).length = min k (seen ++ [c]).length := by
        rw [s1]
        simp
      have hsub' : ∀ x ∈ consider k heap c, x ∈ seen ++ [c] := by
        intro x hx
        rcases s3 x hx with hx' | rfl
        · exact List.mem_append_left _ (h3 x hx')
        · exact List.mem_append_right _ (List.mem_cons_self _ _)
      have hopt' : ∀ x ∈ seen ++ [c], x ∈ consider k heap c ∨
          ((consider k heap c).length = k ∧ ∀ h ∈ consider k heap c, x.2 ≤ h.2) := by
        intro x hx
        rcases List.mem_append.mp hx with hx' | hx'
        · rcases h4 x hx' with hin | ⟨hfull, hall⟩
          · exact s5 x hin
          · refine Or.inr ⟨?_, s6 hfull x.2 hall⟩
            rw [s1]
            omega
        · have : x = c := by simpa using hx'
          subst this
          exact s4
      obtain ⟨r1, r2, r3, r4⟩ := ih (consider k heap c) (seen ++ [c])
        hlen' s2 hsub' hopt'
      rw [List.foldl_cons]
      refine ⟨?_, r2, ?_, ?_⟩
      · rw [r1]
        simp
        omega
      · intro x hx
        rcases r3 x hx with hx' | hx'
        · rcases List.mem_append.mp hx' with h | h
          · exact Or.inl h
          · exact Or.inr (List.mem_cons.mpr (Or.inl (by simpa using h)))
        · exact Or.inr (List.mem_cons_of_mem _ hx')
      · intro x hx
        apply r4
        rcases hx with hx | hx
        · exact Or.inl (List.mem_append_left _ hx)
        · rcases List.mem_cons.mp hx with rfl | hx'
          · exact Or.inl (List.mem_append_right _ (List.mem_cons_self _ _))
          · exact Or.inr hx'

/-- The scan result: at most k hits, max-first, drawn from the rows, and
score-optimal among them. -/
theorem knnTopK_spec {S : Type} [LinearOrder S] (k : ℕ) (hk : k ≠ 0)
    (rows : List (ℕ × S)) :
    (knnTopK k rows).length = min k rows.length ∧
    List.Pairwise (fun a b : ℕ × S => b.2 ≤ a.2) (knnTopK k rows) ∧
    (∀ h ∈ knnTopK k rows, h ∈ rows) ∧
    (∀ c ∈ rows, c ∈ knnTopK k rows ∨ ∀ h ∈ knnTopK k rows, c.2 ≤ h.2) := by
  obtain ⟨r1, r2, r3, r4⟩ := consider_foldl_inv k hk rows [] []
    (by simp) (by simp) (by simp) (by simp)
  unfold knnTopK
  refine ⟨by simpa using r1, ?_, ?_, ?_⟩
  · rw [List.pairwise_reverse]
    exact r2
  · intro h hh
    rcases r3 h (List.mem_reverse.mp hh) with h' | h'
    · cases h'
    · exact h'
  · intro c hc
    rcases r4 c (Or.inr hc) with h | h
    · exact Or.inl (List.mem_reverse.mpr h)
    · exact Or.inr fun h' hh' => h h' (List.mem_reverse.mp hh')

theorem dotR_self_nonneg (v : List ℝ) : 0 ≤ dotR v v := by
  induction v with
  | nil => simp [dotR]
  | cons a as ih =>
      rw [dotR]
      have := mul_self_nonneg a
      linarith

theorem dotR_left_zero (v : List ℝ) (hv : dotR v v = 0) :
    ∀ w : List ℝ, dotR v w = 0 := by
  induction v with
  | nil =>
      intro w
      cases w <;> rfl
  | cons a as ih =>
      rw [dotR] at hv
      have h1 : 0 ≤ a * a := mul_self_nonneg a
      have h2 : 0 ≤ dotR as as := dotR_self_nonneg as
      have ha : a = 0 := by nlinarith
      have has : dotR as as = 0 := by linarith
      intro w
      cases w with
      | nil => rfl
      | cons b bs =>
          rw [dotR, ha, ih has bs]
          ring

/-- The score the code computes equals textbook cosine similarity with the
zero-norm-gives-0 convention: when `‖q‖ = 0` every coordinate of q is 0,
so the dot product vanishes and the `qnorm := 1` trick yields exactly 0. -/
theorem codeScore_eq_cosineSim (f32 : List ℕ → ℝ) (qbytes vbytes : List ℕ) :
    codeScore f32 qbytes vbytes
      = cosineSim ((chunk4 qbytes).map f32) ((chunk4 vbytes).map f32) := by
  show (if 0 < Real.sqrt (dotR ((chunk4 vbytes).map f32) ((chunk4 vbytes).map f32))
      then dotR ((chunk4 qbytes).map f32) ((chunk4 vbytes).map f32) /
        ((if Real.sqrt (dotR ((chunk4 qbytes).map f32) ((chunk4 qbytes).map f32)) = 0
          then 1
          else Real.sqrt (dotR ((chunk4 qbytes).map f32) ((chunk4 qbytes).map f32))) *
          Real.sqrt (dotR ((chunk4 vbytes).map f32) ((chunk4 vbytes).map f32)))
      else 0) = _
  rw [cosineSim]
  set q := (chunk4 qbytes).map f32 with hqdef
  set x := (chunk4 vbytes).map f32 with hxdef
  by_cases hx : Real.sqrt (dotR x x) = 0
  · rw [hx]
    simp
  · have hxpos : 0 < Real.sqrt (dotR x x) :=
      lt_of_le_of_ne (Real.sqrt_nonneg _) (Ne.symm hx)
    rw [if_pos hxpos]
    by_cases hq : Real.sqrt (dotR q q) = 0
    · rw [if_pos hq, if_pos (Or.inl hq)]
      have hqq : dotR q q = 0 := by
        have h1 := Real.sqrt_eq_zero'.mp hq
        have h2 := dotR_self_nonneg q
        linarith
      rw [dotR_left_zero q hqq x]
      simp
    · rw [if_neg hq, if_neg (by push_neg; exact ⟨hq, hx⟩)]

/-- C5: refuted as stated — with `k ≠ 0`, an unregistered tag and a query
of 3 bytes, `knn` raises InvalidArgument (the multiple-of-4 check runs
BEFORE the tag lookup) instead of returning the empty result the claim
promises whenever no dimension is registered. -/
theorem C5_knn_invalid_before_empty_counterexample :
    tblGet emptyState.vecTagMeta 1 = none ∧
    knn (fun _ => (0 : ℝ)) emptyState 1 [0, 0, 0] 0 1 = .error .invalidArg := by
  constructor
  · rfl
  · rfl

/-- C5 amended: `k = 0` gives an empty result; a query length that is not a
multiple of 4 fails with InvalidArgument even for an unregistered tag (that
check precedes the tag lookup); otherwise an unregistered tag gives an
empty result; otherwise, when the query passes the dim checks, the result
holds at most k hits, drawn only from `nodeVectors` rows with the right tag
and value length `4·dim`, each scored by cosine similarity (score 0 when
either norm is zero), in descending score order, and score-optimal among
the matching rows. -/
theorem C5_knn_spec (f32 : List ℕ → ℝ) (st : StoreState) (tagId : ℕ)
    (qbytes : List ℕ) (qdim k : ℕ) :
    (k = 0 → knn f32 st tagId qbytes qdim k = .ok []) ∧
    (k ≠ 0 → qbytes.length % 4 ≠ 0 →
      knn f32 st tagId qbytes qdim k = .error .invalidArg) ∧
    (k ≠ 0 → qbytes.length % 4 = 0 → tblGet st.vecTagMeta tagId = none →
      knn f32 st tagId qbytes qdim k = .ok []) ∧
    (∀ dim, k ≠ 0 → qbytes.length % 4 = 0 →
      tblGet st.vecTagMeta tagId = some dim →
      (qdim = 0 ∨ qdim = dim) → qbytes.length / 4 = dim →
      ∃ hits, knn f32 st tagId qbytes qdim k = .ok hits ∧
        hits.length = min k (st.nodeVectors.filter fun p =>
          decide (p.1.2 = tagId ∧ p.2.length = 4 * dim)).length ∧
        List.Pairwise (fun a b : ℕ × ℝ => b.2 ≤ a.2) hits ∧
        (∀ h ∈ hits, ∃ p ∈ st.nodeVectors, p.1.2 = tagId ∧
          p.2.length = 4 * dim ∧
          h = (p.1.1,
            cosineSim ((chunk4 qbytes).map f32) ((chunk4 p.2).map f32))) ∧
        (∀ p ∈ st.nodeVectors, p.1.2 = tagId → p.2.length = 4 * dim →
          (p.1.1, cosineSim ((chunk4 qbytes).map f32) ((chunk4 p.2).map f32))
              ∈ hits ∨
            ∀ h ∈ hits, cosineSim ((chunk4 qbytes).map f32)
              ((chunk4 p.2).map f32) ≤ h.2)) := by
  refine ⟨?_, ?_, ?_, ?_⟩
  · intro hk0
    simp [knn, hk0]
  · intro hk0 hmod4
    simp [knn, hk0, hmod4]
  · intro hk0 hmod4 hmeta
    simp [knn, hk0, hmod4, hmeta]
  · intro dim hk0 hmod4 hmeta hqdim hdiv
    have hqc : ¬(qdim ≠ 0 ∧ qdim ≠ dim) := by tauto
    have hfun : (fun p : (ℕ × ℕ) × List ℕ => (p.1.1, codeScore f32 qbytes p.2))
        = fun p => (p.1.1,
          cosineSim ((chunk4 qbytes).map f32) ((chunk4 p.2).map f32)) :=
      funext fun p => by rw [codeScore_eq_cosineSim]
    have hknn : knn f32 st tagId qbytes qdim k
        = .ok (knnTopK k ((st.nodeVectors.filter fun p =>
            decide (p.1.2 = tagId ∧ p.2.length = 4 * dim)).map
            fun p => (p.1.1,
              cosineSim ((chunk4 qbytes).map f32) ((chunk4 p.2).map f32)))) := by
      rw [← hfun]
      simp [knn, hk0, hmod4, hmeta, hqc, hdiv]
    obtain ⟨r1, r2, r3, r4⟩ := knnTopK_spec k hk0
      ((st.nodeVectors.filter fun p =>
        decide (p.1.2 = tagId ∧ p.2.length = 4 * dim)).map
        fun p => (p.1.1,
          cosineSim ((chunk4 qbytes).map f32) ((chunk4 p.2).map f32)))
    refine ⟨_, hknn, by simpa using r1, r2, ?_, ?_⟩
    · intro h hh
      obtain ⟨p, hp, hph⟩ := List.mem_map.mp (r3 h hh)
      have hp' := List.mem_filter.mp hp
      have hcond := hp'.2
      simp only [decide_eq_true_eq] at hcond
      exact ⟨p, hp'.1, hcond.1, hcond.2, hph.symm⟩
    · intro p hp htag hlen
      apply r4
      exact List.mem_map_of_mem _
        (List.mem_filter.mpr ⟨hp, by simp [htag, hlen]⟩)

/-- C5 witness: the k = 0 branch on the fresh environment with the trivial
float interpretation. -/
theorem C5_knn_spec_witness :
    knn (fun _ => (0 : ℝ)) emptyState 1 [] 0 0 = .ok [] :=
  (C5_knn_spec (fun _ => (0 : ℝ)) emptyState 1 [] 0 0).1 rfl

end Stardust
